import Mathlib

/-!
Verification development for the `hearing_model` auditory-periphery
simulator.  The visible repository consists of a thin Python re-export
layer (`bruce/__init__`, exposing the constant table `BARK_SCALE` and the
native module `brucecpp`) and a test harness (`tests/test_lib.py`).  The
simulation engine itself (stimulus construction, filterbank, synapse
model, spike generation, neurogram binning) is a pre-built native module
whose source is not part of the repository, so it is modelled here from
the specification, with the repository's tests fixing the observable
behaviour (in particular the argument order of `ramped_sine_wave`, which
the specification leaves open: `test_stimulus` forces
`stimulus_duration = arg1 + arg5 = 0.25 + 0.025 = 0.275`, so `arg1` is
the tone duration, `arg4` the ramp duration and `arg5` the pre-tone
delay).  Time quantities are modelled as exact rationals.
-/

/-- Errors raised by stimulus construction, per the specification's error
taxonomy. -/
inductive StimulusError where
  | InvalidParameter
  | UnreadableFile
  | NumericalInstability
deriving DecidableEq, Repr

/-- Errors raised by `Neurogram` operations, per the specification's error
taxonomy. -/
inductive NeurogramError where
  | InvalidBinWidth
  | NotPopulated
deriving DecidableEq, Repr

/-- Modelled from the spec: the `Stimulus` data model of the missing native
engine — sampling rate (Hz), total duration (seconds, tone plus padding),
time resolution (= 1/sampling_rate), number of simulation timesteps and the
raw sample sequence. -/
structure Stimulus where
  sampling_rate : ℕ
  stimulus_duration : ℚ
  time_resolution : ℚ
  n_simulation_timesteps : ℕ
  samples : List ℚ
deriving DecidableEq, Repr

/-- Modelled from the spec: smooth amplitude ramp factor over the first and
last `rt` seconds of a tone of duration `d` (the exact ramp shape is left
open by the spec; a linear onset/offset ramp is used here). -/
def ramp_factor (rt d t : ℚ) : ℚ :=
  if 0 < rt ∧ t < rt then t / rt
  else if 0 < rt ∧ d - t < rt then (d - t) / rt
  else 1

/-- Modelled from the spec: periodic oscillator standing in for the sine
carrier (a rational triangle wave; the exact waveform values are engine
internals no observable contract depends on). -/
def osc (x : ℚ) : ℚ :=
  let y := x - ⌊x⌋
  if y < 1 / 2 then 4 * y - 1 else 3 - 4 * y

/-- Modelled from the spec: conversion of a dB level to a linear amplitude
scale (the true engine uses 20·10⁻⁶·10^(db/20); a rational monotone
stand-in is used since no observable contract depends on sample values). -/
def level_amplitude (db : ℚ) : ℚ :=
  20 / 1000000 * (1 + db * db)

/-- Modelled from the spec: one sample of the ramped tone embedded after
`delay` seconds of leading silence. -/
def tone_sample (d rt f amp tr delay : ℚ) (i : ℕ) : ℚ :=
  let t := (i : ℚ) * tr
  if t < delay ∨ delay + d ≤ t then 0
  else amp * ramp_factor rt d (t - delay) * osc (f * (t - delay))

/-- Modelled from the spec: the `ramped_sine_wave` stimulus constructor of
the missing native engine.  Argument order fixed by
`tests/test_lib.py::test_stimulus`: tone duration, simulation-duration
parameter (semantics left open by the spec; unused for the reported
metadata), sampling rate (Hz), ramp duration (applied at onset and
offset), pre-tone delay, tone frequency (Hz), level (dB).  Fails with
`InvalidParameter` when the ramp duration exceeds half the tone duration
or the frequency is at or above Nyquist; otherwise reports
`stimulus_duration = duration + delay` and
`n_simulation_timesteps = round(stimulus_duration * sampling_rate)`. -/
def ramped_sine_wave (duration sim_duration : ℚ) (sampling_rate : ℕ)
    (rt delay frequency level : ℚ) : Except StimulusError Stimulus :=
  if duration / 2 < rt then .error .InvalidParameter
  else if (sampling_rate : ℚ) / 2 ≤ frequency then .error .InvalidParameter
  else
    let dur := duration + delay
    let n := (round (dur * (sampling_rate : ℚ))).toNat
    let tr := 1 / (sampling_rate : ℚ)
    .ok { sampling_rate := sampling_rate
          stimulus_duration := dur
          time_resolution := tr
          n_simulation_timesteps := n
          samples := (List.range n).map
            (tone_sample duration rt frequency (level_amplitude level) tr delay) }

/-- Modelled from the spec: the `from_file` stimulus constructor.  File
decoding is I/O and is modelled by its outcome: `none` stands for a
missing or unsupported file (failing with `UnreadableFile`), `some`
carries the decoded native sampling rate and sample sequence.  The
resample flag is retained from the interface; `stimulus_duration` is set
from the sample count. -/
def from_file (decoded : Option (ℕ × List ℚ)) (resample : Bool) :
    Except StimulusError Stimulus :=
  match decoded with
  | none => .error .UnreadableFile
  | some (rate, ws) =>
    if rate = 0 then .error .UnreadableFile
    else
      .ok { sampling_rate := rate
            stimulus_duration := (ws.length : ℚ) / (rate : ℚ)
            time_resolution := 1 / (rate : ℚ)
            n_simulation_timesteps := ws.length
            samples := ws }

/-- The module-level center-frequency table of `bruce/__init__`
(read-only configuration, initialized once at import; modelled as an
immutable list). -/
def BARK_SCALE : List ℕ :=
  [50, 100, 150, 250, 350, 450, 570, 700, 840, 1000, 1170, 1370, 1600,
   1850, 2150, 2500, 2900, 3400, 4000, 4800, 5800, 7000, 8500, 10500, 13500]

/-- Modelled from the spec: the center frequency of a channel, drawn from
the fixed configuration table. -/
def center_frequency (c : ℕ) : ℚ :=
  (BARK_SCALE.getD (c % BARK_SCALE.length) 50 : ℕ)

/-- Modelled from the spec: a causal one-pole low-pass filter, computed in
a single forward pass over the sample sequence (state `st`, coefficient
`a`). -/
def low_pass (a : ℚ) : ℚ → List ℚ → List ℚ
  | _, [] => []
  | st, x :: xs =>
    let y := st + a * (x - st)
    y :: low_pass a y xs

/-- Modelled from the spec: memoryless compressive nonlinearity of the
basilar-membrane stage (gain decreases with increasing input level). -/
def compress (x : ℚ) : ℚ :=
  x / (1 + |x|)

/-- Modelled from the spec: the peripheral filter stage for one channel —
a causal, single-pass, level-dependent nonlinear filter whose exact
coefficients the spec leaves open; output has the same length as the
input. -/
def peripheral_filter (cf : ℚ) (xs : List ℚ) : List ℚ :=
  low_pass (cf / (cf + 10000)) 0 (xs.map compress)

/-- Modelled from the spec: half-wave rectification of the hair-cell
transduction stage. -/
def half_wave (x : ℚ) : ℚ :=
  max x 0

/-- Modelled from the spec: the power-limited vesicle-release process — a
finite pool that depletes under sustained drive and recovers with a fixed
time constant; deterministic given its input. -/
def vesicle_release : ℚ → List ℚ → List ℚ
  | _, [] => []
  | pool, r :: rs =>
    let rel := min pool (r / 4)
    rel :: vesicle_release (pool - rel + (1 - pool) / 8) rs

/-- Modelled from the spec: the hair-cell / synapse model — rectification,
membrane low-pass and vesicle release, producing one instantaneous rate
value per timestep. -/
def synapse_rates (xs : List ℚ) : List ℚ :=
  vesicle_release 1 (low_pass (1 / 8) 0 (xs.map half_wave))

/-- Modelled from the spec: deterministic per-(channel, repetition, step)
random source — each repetition's stream is derived from its index so
repetitions are independent and reproducible. -/
def mix (c r i : ℕ) : ℕ :=
  (1103515245 * (2654435761 * c + 40503 * r + i) + 12345) % 2147483648

/-- Modelled from the spec: one Bernoulli draw of the thinning method —
compares the uniform draw for step `i` against the instantaneous rate. -/
def accept (c r i : ℕ) (rate : ℚ) : Bool :=
  (mix c r i : ℚ) / 2147483648 < rate

/-- Modelled from the spec: the renewal spike draw with refractory
suppression — walks the rate sequence from sample index `i`, emitting a
spike only when the refractory countdown `cool` has expired and the draw
accepts; after a spike the countdown restarts at `refr`. -/
def gen_spikes (c r refr : ℕ) : ℕ → ℕ → List ℚ → List ℕ
  | _, _, [] => []
  | i, cool, rate :: rest =>
    if cool = 0 ∧ accept c r i rate then
      i :: gen_spikes c r refr (i + 1) refr rest
    else
      gen_spikes c r refr (i + 1) (cool - 1) rest

/-- Modelled from the spec: the full per-(channel, repetition) pipeline —
peripheral filter, synapse model, then the stochastic spike draw; yields
the spike train as a list of sample indices. -/
def spike_train (s : Stimulus) (c r : ℕ) : List ℕ :=
  gen_spikes c r 2 0 0
    (synapse_rates (peripheral_filter (center_frequency c) s.samples))

/-- Modelled from the spec: bins a spike train into `nbins` contiguous,
non-overlapping buckets of `k` timesteps each (bucket `b` holds the
spikes with `i / k = b`). -/
def bin_spikes (k nbins : ℕ) (train : List ℕ) : List ℕ :=
  (List.range nbins).map fun b => train.countP fun i => i / k == b

/-- Pointwise addition of two equal-length count vectors. -/
def vec_add (u v : List ℕ) : List ℕ :=
  List.zipWith (· + ·) u v

/-- Modelled from the spec: the accumulation step of the binner — a fold
summing per-repetition count vectors into one vector of `nbins` buckets. -/
def accumulate (nbins : ℕ) (l : List (List ℕ)) : List ℕ :=
  l.foldr vec_add (List.replicate nbins 0)

/-- Modelled from the spec: the `Neurogram` data model — channel count and
bin width fixed by configuration, repetition count recorded by `create`,
and the output matrix, absent until the first successful `create`. -/
structure Neurogram where
  channel_count : ℕ
  bin_width : ℚ
  n_repetitions : ℕ
  output : Option (List (List ℕ))
deriving DecidableEq, Repr

/-- Modelled from the spec: the `Neurogram(channel_count)` constructor —
created empty, in the Configured state, with no output matrix. -/
def Neurogram.init (c : ℕ) : Neurogram :=
  { channel_count := c, bin_width := 0, n_repetitions := 0, output := none }

/-- Modelled from the spec: setting `bin_width` before `create`. -/
def Neurogram.set_bin_width (ng : Neurogram) (bw : ℚ) : Neurogram :=
  { ng with bin_width := bw }

/-- Modelled from the spec: the populated matrix — one row per channel,
each row the accumulation over all repetitions of that channel's binned
spike train. -/
def output_matrix (s : Stimulus) (C reps k nbins : ℕ) : List (List ℕ) :=
  (List.range C).map fun c =>
    accumulate nbins (((List.range reps).map (spike_train s c)).map (bin_spikes k nbins))

/-- Modelled from the spec: `Neurogram.create(stimulus, repetitions)` main
entry — validation, pipeline, population (see `output_matrix` for the
pipeline and accumulation step). -/
def Neurogram.create (ng : Neurogram) (s : Stimulus) (reps : ℕ) :
    Except NeurogramError Neurogram :=
  let ratio := ng.bin_width / s.time_resolution
  if ratio.den = 1 ∧ 0 < ratio.num ∧ ratio.num.toNat ∣ s.n_simulation_timesteps then
    .ok { ng with
          n_repetitions := reps
          output := some (output_matrix s ng.channel_count reps ratio.num.toNat
            (s.n_simulation_timesteps / ratio.num.toNat)) }
  else
    .error .InvalidBinWidth

/-- Modelled from the spec: `get_output()` — a pure accessor that returns
the current matrix, failing with `NotPopulated` before any successful
`create`. -/
def Neurogram.get_output (ng : Neurogram) : Except NeurogramError (List (List ℕ)) :=
  match ng.output with
  | some m => .ok m
  | none => .error .NotPopulated

/-- The matrix currently stored in a neurogram (empty when unpopulated). -/
def Neurogram.matrix (ng : Neurogram) : List (List ℕ) :=
  ng.output.getD []

/-- State-transition view of `create`: on success the new state is
returned with no error, on failure the prior state is returned together
with the error. -/
def create_run (ng : Neurogram) (s : Stimulus) (reps : ℕ) :
    Neurogram × Option NeurogramError :=
  match ng.create s reps with
  | .ok ng2 => (ng2, none)
  | .error e => (ng, some e)

/-! ### Helper lemmas about the pipeline stages -/

theorem low_pass_length (a : ℚ) (st : ℚ) (xs : List ℚ) :
    (low_pass a st xs).length = xs.length := by
  induction xs generalizing st with
  | nil => rfl
  | cons x xs ih => simp [low_pass, ih]

theorem vesicle_release_length (pool : ℚ) (rs : List ℚ) :
    (vesicle_release pool rs).length = rs.length := by
  induction rs generalizing pool with
  | nil => rfl
  | cons r rs ih => simp [vesicle_release, ih]

theorem peripheral_filter_length (cf : ℚ) (xs : List ℚ) :
    (peripheral_filter cf xs).length = xs.length := by
  simp [peripheral_filter, low_pass_length]

theorem synapse_rates_length (xs : List ℚ) :
    (synapse_rates xs).length = xs.length := by
  simp [synapse_rates, vesicle_release_length, low_pass_length]

theorem gen_spikes_mem {c r refr : ℕ} {i cool : ℕ} {l : List ℚ} {j : ℕ}
    (h : j ∈ gen_spikes c r refr i cool l) : i ≤ j ∧ j < i + l.length := by
  induction l generalizing i cool with
  | nil => simp [gen_spikes] at h
  | cons rate rest ih =>
    rw [gen_spikes] at h
    by_cases hc : cool = 0 ∧ accept c r i rate
    · rw [if_pos hc] at h
      rcases List.mem_cons.mp h with hj | hj
      · subst hj; exact ⟨le_refl j, by simp⟩
      · have := ih hj
        constructor
        · omega
        · simpa [Nat.add_comm, Nat.add_left_comm] using this.2
    · rw [if_neg hc] at h
      have := ih h
      constructor
      · omega
      · simpa [Nat.add_comm, Nat.add_left_comm] using this.2

theorem spike_train_mem_lt {s : Stimulus} {c r j : ℕ}
    (h : j ∈ spike_train s c r) : j < s.samples.length := by
  have := gen_spikes_mem h
  simpa [synapse_rates_length, peripheral_filter_length] using this.2

theorem vec_add_length (u v : List ℕ) :
    (vec_add u v).length = min u.length v.length := by
  simp [vec_add]

theorem vec_add_getD {u v : List ℕ} {b : ℕ} (hb : b < u.length) (hb2 : b < v.length) :
    (vec_add u v).getD b 0 = u.getD b 0 + v.getD b 0 := by
  rw [vec_add, List.getD_eq_getElem?_getD, List.getElem?_zipWith]
  rw [List.getElem?_eq_getElem hb, List.getElem?_eq_getElem hb2]
  simp [List.getD_eq_getElem?_getD, List.getElem?_eq_getElem hb, List.getElem?_eq_getElem hb2]

theorem vec_add_left_comm (a b c : List ℕ) :
    vec_add a (vec_add b c) = vec_add b (vec_add a c) := by
  induction a generalizing b c with
  | nil => cases b <;> cases c <;> simp [vec_add]
  | cons x xs ih =>
    cases b with
    | nil => simp [vec_add]
    | cons y ys =>
      cases c with
      | nil => simp [vec_add]
      | cons z zs =>
        have := ih ys zs
        simp only [vec_add, List.zipWith] at this ⊢
        refine congrArg₂ (· :: ·) (by omega) ?_
        exact this

theorem accumulate_cons (nbins : ℕ) (v : List ℕ) (vs : List (List ℕ)) :
    accumulate nbins (v :: vs) = vec_add v (accumulate nbins vs) := rfl

theorem accumulate_length {nbins : ℕ} {l : List (List ℕ)}
    (h : ∀ v ∈ l, v.length = nbins) : (accumulate nbins l).length = nbins := by
  induction l with
  | nil => simp [accumulate]
  | cons v vs ih =>
    have hv : v.length = nbins := h v (List.mem_cons_self v vs)
    have hvs := ih (fun w hw => h w (List.mem_cons_of_mem v hw))
    rw [accumulate_cons, vec_add_length, hv, hvs, Nat.min_self]

theorem accumulate_getD {nbins : ℕ} {l : List (List ℕ)} {b : ℕ}
    (h : ∀ v ∈ l, v.length = nbins) (hb : b < nbins) :
    (accumulate nbins l).getD b 0 = (l.map (fun v => v.getD b 0)).sum := by
  induction l with
  | nil =>
    simp [accumulate, List.getD_eq_getElem?_getD, List.getElem?_replicate, hb]
  | cons v vs ih =>
    have hv : v.length = nbins := h v (List.mem_cons_self v vs)
    have hvs : ∀ w ∈ vs, w.length = nbins := fun w hw => h w (List.mem_cons_of_mem v hw)
    have hlen : (accumulate nbins vs).length = nbins := accumulate_length hvs
    rw [accumulate_cons, vec_add_getD (by omega) (by omega), ih hvs]
    simp

theorem accumulate_perm (nbins : ℕ) {l1 l2 : List (List ℕ)} (h : l1.Perm l2) :
    accumulate nbins l1 = accumulate nbins l2 := by
  induction h with
  | nil => rfl
  | cons x h ih => rw [accumulate_cons, accumulate_cons, ih]
  | swap x y l => rw [accumulate_cons, accumulate_cons, accumulate_cons, accumulate_cons,
      vec_add_left_comm]
  | trans h1 h2 ih1 ih2 => exact ih1.trans ih2

theorem bin_spikes_length (k nbins : ℕ) (train : List ℕ) :
    (bin_spikes k nbins train).length = nbins := by
  simp [bin_spikes]

theorem bin_spikes_getD {k nbins : ℕ} {b : ℕ} (train : List ℕ) (hb : b < nbins) :
    (bin_spikes k nbins train).getD b 0 = train.countP (fun i => i / k == b) := by
  rw [bin_spikes, List.getD_eq_getElem?_getD]
  simp [List.getElem?_map, List.getElem?_range hb]

theorem output_matrix_length (s : Stimulus) (C reps k nbins : ℕ) :
    (output_matrix s C reps k nbins).length = C := by
  simp [output_matrix]

theorem output_matrix_row_length {s : Stimulus} {C reps k nbins : ℕ} :
    ∀ row ∈ output_matrix s C reps k nbins, row.length = nbins := by
  intro row hrow
  rcases List.mem_map.mp hrow with ⟨c, _, rfl⟩
  refine accumulate_length ?_
  intro v hv
  rcases List.mem_map.mp hv with ⟨t, _, rfl⟩
  exact bin_spikes_length k nbins t

theorem output_matrix_getD {s : Stimulus} {C reps k nbins c b : ℕ}
    (hc : c < C) (hb : b < nbins) :
    ((output_matrix s C reps k nbins).getD c []).getD b 0 =
      ((List.range reps).map
        (fun r => (spike_train s c r).countP (fun i => i / k == b))).sum := by
  have hrow : (output_matrix s C reps k nbins).getD c [] =
      accumulate nbins (((List.range reps).map (spike_train s c)).map (bin_spikes k nbins)) := by
    rw [output_matrix, List.getD_eq_getElem?_getD]
    simp [List.getElem?_map, List.getElem?_range hc]
  rw [hrow, accumulate_getD ?hlen hb]
  case hlen =>
    intro v hv
    rcases List.mem_map.mp hv with ⟨t, _, rfl⟩
    exact bin_spikes_length k nbins t
  rw [List.map_map, List.map_map]
  refine congrArg List.sum (List.map_congr_left ?_)
  intro r _
  exact bin_spikes_getD (spike_train s c r) hb

theorem bin_width_valid_iff {bw tr : ℚ} {n : ℕ} (htr : 0 < tr) :
    ((bw / tr).den = 1 ∧ 0 < (bw / tr).num ∧ (bw / tr).num.toNat ∣ n) ↔
      ∃ k : ℕ, 0 < k ∧ bw = (k : ℚ) * tr ∧ k ∣ n := by
  constructor
  · rintro ⟨h1, h2, h3⟩
    refine ⟨(bw / tr).num.toNat, by omega, ?_, h3⟩
    have hnum : (((bw / tr).num.toNat : ℤ) : ℚ) = ((bw / tr).num : ℚ) := by
      rw [Int.toNat_of_nonneg h2.le]
    have hden : ((bw / tr).num : ℚ) = bw / tr := (Rat.den_eq_one_iff _).mp h1
    calc bw = bw / tr * tr := (div_mul_cancel₀ bw (ne_of_gt htr)).symm
    _ = ((bw / tr).num.toNat : ℚ) * tr := by
        rw [show (((bw / tr).num.toNat : ℕ) : ℚ) = (((bw / tr).num.toNat : ℤ) : ℚ) by push_cast; ring,
          hnum, hden]
  · rintro ⟨k, hk, rfl, hdvd⟩
    have hq : (k : ℚ) * tr / tr = (k : ℚ) := mul_div_cancel_right₀ _ (ne_of_gt htr)
    rw [hq]
    refine ⟨Rat.den_natCast k, ?_, ?_⟩
    · rw [Rat.num_natCast]
      exact_mod_cast hk
    · rw [Rat.num_natCast]
      simpa using hdvd

theorem create_of_valid (ng : Neurogram) (s : Stimulus) (reps : ℕ)
    (h : (ng.bin_width / s.time_resolution).den = 1 ∧
      0 < (ng.bin_width / s.time_resolution).num ∧
      (ng.bin_width / s.time_resolution).num.toNat ∣ s.n_simulation_timesteps) :
    ng.create s reps = .ok { ng with
      n_repetitions := reps
      output := some (output_matrix s ng.channel_count reps
        (ng.bin_width / s.time_resolution).num.toNat
        (s.n_simulation_timesteps / (ng.bin_width / s.time_resolution).num.toNat)) } := by
  rw [Neurogram.create]
  exact if_pos h

theorem create_of_invalid (ng : Neurogram) (s : Stimulus) (reps : ℕ)
    (h : ¬((ng.bin_width / s.time_resolution).den = 1 ∧
      0 < (ng.bin_width / s.time_resolution).num ∧
      (ng.bin_width / s.time_resolution).num.toNat ∣ s.n_simulation_timesteps)) :
    ng.create s reps = .error .InvalidBinWidth := by
  rw [Neurogram.create]
  exact if_neg h

/-! ### Concrete objects used by the witnesses -/

/-- A small concrete stimulus produced by `ramped_sine_wave` (rate 10 Hz,
tone duration 1/5 s, no ramp, no delay). -/
def stim_a : Stimulus :=
  { sampling_rate := 10
    stimulus_duration := 1/5
    time_resolution := 1/10
    n_simulation_timesteps := 2
    samples := [-1/50000, -1/50000] }

theorem stim_a_eq : ramped_sine_wave (1/5) (3/10) 10 0 0 0 0 = .ok stim_a := by
  rw [ramped_sine_wave, if_neg (by norm_num), if_neg (by push_cast; norm_num)]
  simp only [stim_a, Except.ok.injEq, Stimulus.mk.injEq]
  norm_num [round_eq]
  have h2 : Int.toNat 2 = 2 := rfl
  rw [h2]
  refine ⟨rfl, ?_⟩
  norm_num [tone_sample, ramp_factor, osc, level_amplitude, List.range_succ]

/-- A small concrete stimulus produced by `from_file` (three decoded
samples at 10 Hz). -/
def stim_c : Stimulus :=
  { sampling_rate := 10
    stimulus_duration := 3/10
    time_resolution := 1/10
    n_simulation_timesteps := 3
    samples := [1, 2, 3] }

theorem stim_c_eq : from_file (some (10, [1, 2, 3])) false = .ok stim_c := by
  rw [from_file]
  norm_num [stim_c]

/-! ### The claims -/

/-- C10: the module-level `BARK_SCALE` table is a fixed array of exactly
25 center frequencies, strictly increasing from 50 Hz up to 13500 Hz and
all positive.  (It is a top-level `def` of an immutable list, so it is
initialized once and no operation can mutate it.) -/
theorem bark_scale_fixed_table :
    BARK_SCALE.length = 25 ∧
    List.Pairwise (· < ·) BARK_SCALE ∧
    BARK_SCALE.all (fun x => decide (0 < x)) = true ∧
    BARK_SCALE.headD 0 = 50 ∧
    BARK_SCALE.getLastD 0 = 13500 := by
  decide

/-- C4: the exact test call
`ramped_sine_wave(.25, .3, 100000, 2.5e-3, 25e-3, 5000, 60.0)` succeeds,
and the resulting stimulus reports `stimulus_duration = 0.275` (exactly,
hence approximately) and `sampling_rate = 100000`. -/
theorem ramped_sine_wave_test_literal :
    (ramped_sine_wave 0.25 0.3 100000 2.5e-3 25e-3 5000 60).map
        (fun s => (s.stimulus_duration, s.sampling_rate)) =
      .ok (0.275, 100000) := by
  rw [ramped_sine_wave, if_neg (by norm_num), if_neg (by push_cast; norm_num)]
  rw [Except.map]
  norm_num

/-- C3: `ramped_sine_wave` fails with `InvalidParameter` whenever the ramp
duration exceeds half the tone duration or the target frequency is at or
above the Nyquist frequency (sampling_rate / 2); for all other parameter
values it succeeds.  (The engine interface takes a single ramp duration,
applied at onset and offset alike.) -/
theorem ramped_sine_wave_invalid_parameter (d sd : ℚ) (sr : ℕ) (rt delay f db : ℚ) :
    ((d / 2 < rt ∨ (sr : ℚ) / 2 ≤ f) →
      ramped_sine_wave d sd sr rt delay f db = .error .InvalidParameter)
    ∧ (¬(d / 2 < rt ∨ (sr : ℚ) / 2 ≤ f) →
      (ramped_sine_wave d sd sr rt delay f db).isOk = true) := by
  constructor
  · intro h
    rw [ramped_sine_wave]
    by_cases h1 : d / 2 < rt
    · rw [if_pos h1]
    · rw [if_neg h1, if_pos (h.resolve_left h1)]
  · intro h
    push_neg at h
    rw [ramped_sine_wave, if_neg (not_lt.mpr h.1), if_neg (not_le.mpr h.2)]
    rfl

theorem ramped_sine_wave_invalid_parameter_witness :
    ramped_sine_wave 1 0 10 1 0 0 0 = .error .InvalidParameter ∧
    (ramped_sine_wave (1/5) (3/10) 10 0 0 0 0).isOk = true :=
  ⟨(ramped_sine_wave_invalid_parameter 1 0 10 1 0 0 0).1 (Or.inl (by norm_num)),
   (ramped_sine_wave_invalid_parameter (1/5) (3/10) 10 0 0 0 0).2
     (by push_neg; constructor <;> [norm_num; (push_cast; norm_num)])⟩

/-- C2: every successfully constructed `Stimulus` (synthetic with
nonnegative durations, or decoded from a file) satisfies
`n_simulation_timesteps = round(stimulus_duration * sampling_rate)`, has
exactly `n_simulation_timesteps` raw samples, has
`time_resolution = 1 / sampling_rate`, and carries the requested
sampling rate unchanged. -/
theorem stimulus_metadata_invariants (d sd : ℚ) (sr : ℕ) (rt delay f db : ℚ)
    (decoded : Option (ℕ × List ℚ)) (rs : Bool) (s t : Stimulus)
    (hd : 0 ≤ d) (hdelay : 0 ≤ delay) :
    (ramped_sine_wave d sd sr rt delay f db = .ok s →
      (s.n_simulation_timesteps : ℤ) = round (s.stimulus_duration * (s.sampling_rate : ℚ)) ∧
      s.samples.length = s.n_simulation_timesteps ∧
      s.time_resolution = 1 / (s.sampling_rate : ℚ) ∧
      s.sampling_rate = sr)
    ∧ (from_file decoded rs = .ok t →
      (t.n_simulation_timesteps : ℤ) = round (t.stimulus_duration * (t.sampling_rate : ℚ)) ∧
      t.samples.length = t.n_simulation_timesteps ∧
      t.time_resolution = 1 / (t.sampling_rate : ℚ) ∧
      (decoded.map Prod.fst).getD 0 = t.sampling_rate) := by
  constructor
  · intro h
    rw [ramped_sine_wave] at h
    by_cases h1 : d / 2 < rt
    · rw [if_pos h1] at h
      exact absurd h (by simp)
    · rw [if_neg h1] at h
      by_cases h2 : (sr : ℚ) / 2 ≤ f
      · rw [if_pos h2] at h
        exact absurd h (by simp)
      · rw [if_neg h2] at h
        injection h with hs
        subst hs
        have hnn : (0 : ℚ) ≤ (d + delay) * (sr : ℚ) :=
          mul_nonneg (by linarith) (by positivity)
        have hround : 0 ≤ round ((d + delay) * (sr : ℚ)) := by
          rw [round_eq]
          exact Int.floor_nonneg.mpr (by linarith)
        refine ⟨Int.toNat_of_nonneg hround, by simp, rfl, rfl⟩
  · intro h
    match hdec : decoded with
    | none =>
      rw [from_file] at h
      exact absurd h (by simp)
    | some (rate, ws) =>
      rw [from_file] at h
      by_cases hr : rate = 0
      · rw [if_pos hr] at h
        exact absurd h (by simp)
      · rw [if_neg hr] at h
        injection h with hs
        subst hs
        have hrq : ((rate : ℚ)) ≠ 0 := Nat.cast_ne_zero.mpr hr
        refine ⟨?_, rfl, rfl, rfl⟩
        rw [div_mul_cancel₀ _ hrq, round_natCast]

theorem stimulus_metadata_invariants_witness :
    ((stim_a.n_simulation_timesteps : ℤ) =
        round (stim_a.stimulus_duration * (stim_a.sampling_rate : ℚ)) ∧
      stim_a.samples.length = stim_a.n_simulation_timesteps ∧
      stim_a.time_resolution = 1 / (stim_a.sampling_rate : ℚ) ∧
      stim_a.sampling_rate = 10) ∧
    ((stim_c.n_simulation_timesteps : ℤ) =
        round (stim_c.stimulus_duration * (stim_c.sampling_rate : ℚ)) ∧
      stim_c.samples.length = stim_c.n_simulation_timesteps ∧
      stim_c.time_resolution = 1 / (stim_c.sampling_rate : ℚ) ∧
      ((some ((10 : ℕ), ([1, 2, 3] : List ℚ))).map Prod.fst).getD 0 = stim_c.sampling_rate) :=
  ⟨(stimulus_metadata_invariants (1/5) (3/10) 10 0 0 0 0 (some (10, [1, 2, 3])) false
      stim_a stim_c (by norm_num) (by norm_num)).1 stim_a_eq,
   (stimulus_metadata_invariants (1/5) (3/10) 10 0 0 0 0 (some (10, [1, 2, 3])) false
      stim_a stim_c (by norm_num) (by norm_num)).2 stim_c_eq⟩

/-- C5: `Neurogram.create` fails with `InvalidBinWidth` if and only if the
configured `bin_width` is not a positive integer multiple of the
stimulus's `time_resolution` whose bin count divides evenly; otherwise
validation passes and the pipeline runs to a populated result. -/
theorem create_invalid_bin_width_characterization (ng : Neurogram) (s : Stimulus)
    (reps : ℕ) (htr : 0 < s.time_resolution) :
    (ng.create s reps = .error .InvalidBinWidth ↔
      ¬∃ k : ℕ, 0 < k ∧ ng.bin_width = (k : ℚ) * s.time_resolution ∧
        k ∣ s.n_simulation_timesteps)
    ∧ ((∃ k : ℕ, 0 < k ∧ ng.bin_width = (k : ℚ) * s.time_resolution ∧
        k ∣ s.n_simulation_timesteps) → (ng.create s reps).isOk = true) := by
  have hiff := @bin_width_valid_iff ng.bin_width s.time_resolution s.n_simulation_timesteps htr
  constructor
  · constructor
    · intro herr hex
      rw [create_of_valid ng s reps (hiff.mpr hex)] at herr
      exact absurd herr (by simp)
    · intro hnex
      exact create_of_invalid ng s reps (fun hc => hnex (hiff.mp hc))
  · intro hex
    rw [create_of_valid ng s reps (hiff.mpr hex)]
    rfl

theorem create_invalid_bin_width_characterization_witness :
    (Neurogram.init 2).create stim_a 1 = .error .InvalidBinWidth ∧
    (((Neurogram.init 2).set_bin_width (1/10)).create stim_a 1).isOk = true := by
  have h := create_invalid_bin_width_characterization (Neurogram.init 2) stim_a 1
    (by norm_num [stim_a])
  have h2 := create_invalid_bin_width_characterization
    ((Neurogram.init 2).set_bin_width (1/10)) stim_a 1 (by norm_num [stim_a])
  refine ⟨h.1.mpr ?_, h2.2 ⟨1, one_pos, ?_, one_dvd _⟩⟩
  · rintro ⟨k, hk, heq, -⟩
    simp only [Neurogram.init] at heq
    rw [show stim_a.time_resolution = 1/10 from rfl] at heq
    rcases mul_eq_zero.mp heq.symm with hk0 | habs
    · have : k = 0 := Nat.cast_eq_zero.mp hk0
      omega
    · norm_num at habs
  · norm_num [Neurogram.set_bin_width, Neurogram.init, stim_a]

theorem ratio_eq_of_multiple {bw tr : ℚ} {k : ℕ} (htr : 0 < tr)
    (hbw : bw = (k : ℚ) * tr) : bw / tr = (k : ℚ) := by
  subst hbw
  exact mul_div_cancel_right₀ _ (ne_of_gt htr)

theorem natCast_rat_num_toNat (k : ℕ) : ((k : ℚ)).num.toNat = k := by
  rw [Rat.num_natCast]
  simp

/-- C1: after every successful `create(stimulus, repetitions)` the matrix
returned by `get_output()` has exactly `channel_count` rows and exactly
`n_simulation_timesteps / (bin_width / time_resolution)` columns; `create`
fails when that bin count is not an integer; and for `Neurogram(2)` with
`bin_width = stimulus.time_resolution` and `create(stimulus, 1)` the
output shape is `(2, n_simulation_timesteps)`. -/
theorem neurogram_output_shape :
    (∀ (ng ng2 : Neurogram) (s : Stimulus) (reps k : ℕ),
      0 < s.time_resolution → ng.bin_width = (k : ℚ) * s.time_resolution → 0 < k →
      ng.create s reps = .ok ng2 →
      ng2.matrix.length = ng.channel_count ∧
      ∀ row ∈ ng2.matrix, row.length = s.n_simulation_timesteps / k)
    ∧ (∀ (ng : Neurogram) (s : Stimulus) (reps k : ℕ),
      0 < s.time_resolution → ng.bin_width = (k : ℚ) * s.time_resolution → 0 < k →
      ¬k ∣ s.n_simulation_timesteps →
      ng.create s reps = .error .InvalidBinWidth)
    ∧ (∀ (s : Stimulus) (reps : ℕ), 0 < s.time_resolution →
      ∃ ng2, ((Neurogram.init 2).set_bin_width s.time_resolution).create s reps = .ok ng2 ∧
        ng2.get_output = .ok ng2.matrix ∧
        ng2.matrix.length = 2 ∧
        ∀ row ∈ ng2.matrix, row.length = s.n_simulation_timesteps) := by
  refine ⟨?shape, ?fail, ?instance2⟩
  case shape =>
    intro ng ng2 s reps k htr hbw hk h
    have hr : ng.bin_width / s.time_resolution = (k : ℚ) := ratio_eq_of_multiple htr hbw
    by_cases hc : (ng.bin_width / s.time_resolution).den = 1 ∧
        0 < (ng.bin_width / s.time_resolution).num ∧
        (ng.bin_width / s.time_resolution).num.toNat ∣ s.n_simulation_timesteps
    · rw [create_of_valid ng s reps hc] at h
      injection h with h
      subst h
      rw [Neurogram.matrix]
      simp only [Option.getD_some]
      rw [hr, natCast_rat_num_toNat]
      exact ⟨output_matrix_length s ng.channel_count reps k _, output_matrix_row_length⟩
    · rw [create_of_invalid ng s reps hc] at h
      exact absurd h (by simp)
  case fail =>
    intro ng s reps k htr hbw hk hdvd
    have hr : ng.bin_width / s.time_resolution = (k : ℚ) := ratio_eq_of_multiple htr hbw
    refine create_of_invalid ng s reps ?_
    rintro ⟨-, -, hd⟩
    rw [hr, natCast_rat_num_toNat] at hd
    exact hdvd hd
  case instance2 =>
    intro s reps htr
    set ng := (Neurogram.init 2).set_bin_width s.time_resolution with hng
    have hbw : ng.bin_width = ((1 : ℕ) : ℚ) * s.time_resolution := by
      simp [hng, Neurogram.set_bin_width, Neurogram.init]
    have hr : ng.bin_width / s.time_resolution = ((1 : ℕ) : ℚ) :=
      ratio_eq_of_multiple htr hbw
    have hc : (ng.bin_width / s.time_resolution).den = 1 ∧
        0 < (ng.bin_width / s.time_resolution).num ∧
        (ng.bin_width / s.time_resolution).num.toNat ∣ s.n_simulation_timesteps := by
      rw [hr]
      refine ⟨Rat.den_natCast 1, by rw [Rat.num_natCast]; norm_num, ?_⟩
      rw [natCast_rat_num_toNat]
      exact one_dvd _
    refine ⟨_, create_of_valid ng s reps hc, rfl, ?_, ?_⟩
    · rw [Neurogram.matrix]
      simp only [Option.getD_some]
      rw [hr, natCast_rat_num_toNat]
      exact output_matrix_length s _ reps 1 _
    · rw [Neurogram.matrix]
      simp only [Option.getD_some]
      rw [hr, natCast_rat_num_toNat]
      intro row hrow
      rw [output_matrix_row_length row hrow, Nat.div_one]

/-- The concrete configured neurogram used by the witnesses: two channels,
bin width equal to `stim_a`'s time resolution. -/
def ng_a : Neurogram := (Neurogram.init 2).set_bin_width (1/10)

/-- The populated neurogram resulting from `ng_a.create stim_a 1`. -/
def ng_res : Neurogram :=
  { channel_count := 2
    bin_width := 1/10
    n_repetitions := 1
    output := some (output_matrix stim_a 2 1 1 2) }

theorem ng_a_create_eq : ng_a.create stim_a 1 = .ok ng_res := by
  have hr : ng_a.bin_width / stim_a.time_resolution = ((1 : ℕ) : ℚ) :=
    ratio_eq_of_multiple (by norm_num [stim_a])
      (by norm_num [ng_a, Neurogram.set_bin_width, Neurogram.init, stim_a])
  have hc : (ng_a.bin_width / stim_a.time_resolution).den = 1 ∧
      0 < (ng_a.bin_width / stim_a.time_resolution).num ∧
      (ng_a.bin_width / stim_a.time_resolution).num.toNat ∣ stim_a.n_simulation_timesteps := by
    rw [hr]
    exact ⟨Rat.den_natCast 1, by rw [Rat.num_natCast]; norm_num,
      by rw [natCast_rat_num_toNat]; exact one_dvd _⟩
  rw [create_of_valid ng_a stim_a 1 hc, hr, natCast_rat_num_toNat]
  rfl

theorem neurogram_output_shape_witness :
    (ng_res.matrix.length = ng_a.channel_count ∧
      ∀ row ∈ ng_res.matrix, row.length = stim_a.n_simulation_timesteps / 1) ∧
    ((Neurogram.init 2).set_bin_width (3/10)).create stim_a 1 = .error .InvalidBinWidth :=
  ⟨neurogram_output_shape.1 ng_a ng_res stim_a 1 1 (by norm_num [stim_a])
      (by norm_num [ng_a, Neurogram.set_bin_width, Neurogram.init, stim_a]) one_pos
      ng_a_create_eq,
   neurogram_output_shape.2.1 ((Neurogram.init 2).set_bin_width (3/10)) stim_a 1 3
      (by norm_num [stim_a])
      (by norm_num [Neurogram.set_bin_width, Neurogram.init, stim_a]) (by norm_num)
      (by decide)⟩

/-- C6: `get_output()` on a `Neurogram` before any successful `create`
(freshly constructed, with or without a bin width set) fails with
`NotPopulated`; after a successful `create` it is a pure accessor
returning exactly the stored matrix (being a function of the state, it
modifies nothing). -/
theorem get_output_accessor :
    (∀ C : ℕ, (Neurogram.init C).get_output = .error .NotPopulated)
    ∧ (∀ (C : ℕ) (bw : ℚ),
        ((Neurogram.init C).set_bin_width bw).get_output = .error .NotPopulated)
    ∧ (∀ (ng : Neurogram) (m : List (List ℕ)), ng.output = some m → ng.get_output = .ok m)
    ∧ (∀ (ng ng2 : Neurogram) (s : Stimulus) (reps : ℕ),
        ng.create s reps = .ok ng2 → ng2.get_output = .ok ng2.matrix) := by
  refine ⟨fun C => rfl, fun C bw => rfl, ?_, ?_⟩
  · intro ng m h
    rw [Neurogram.get_output, h]
  · intro ng ng2 s reps h
    by_cases hc : (ng.bin_width / s.time_resolution).den = 1 ∧
        0 < (ng.bin_width / s.time_resolution).num ∧
        (ng.bin_width / s.time_resolution).num.toNat ∣ s.n_simulation_timesteps
    · rw [create_of_valid ng s reps hc] at h
      injection h with h
      subst h
      rfl
    · rw [create_of_invalid ng s reps hc] at h
      exact absurd h (by simp)

theorem get_output_accessor_witness :
    ng_res.get_output = .ok (output_matrix stim_a 2 1 1 2) ∧
    ng_res.get_output = .ok ng_res.matrix :=
  ⟨get_output_accessor.2.2.1 ng_res (output_matrix stim_a 2 1 1 2) rfl,
   get_output_accessor.2.2.2 ng_a ng_res stim_a 1 ng_a_create_eq⟩

theorem init_create_stim_a_err :
    (Neurogram.init 2).create stim_a 1 = .error .InvalidBinWidth := by
  refine create_of_invalid _ _ _ ?_
  rintro ⟨-, hnum, -⟩
  rw [show (Neurogram.init 2).bin_width / stim_a.time_resolution = 0 by
    norm_num [Neurogram.init, stim_a]] at hnum
  norm_num at hnum

/-- C7: validation failures are surfaced synchronously as error returns
and are atomic — a failing `create` leaves the neurogram state unchanged,
a succeeding one leaves it fully populated, and a succeeding stimulus
construction returns a fully valid stimulus (never a partial one). -/
theorem create_failure_atomicity :
    (∀ (ng : Neurogram) (s : Stimulus) (reps : ℕ) (e : NeurogramError),
      (create_run ng s reps).2 = some e → (create_run ng s reps).1 = ng)
    ∧ (∀ (ng : Neurogram) (s : Stimulus) (reps : ℕ),
      (create_run ng s reps).2 = none → ((create_run ng s reps).1).output.isSome = true)
    ∧ (∀ (d sd : ℚ) (sr : ℕ) (rt delay f db : ℚ) (s : Stimulus),
      ramped_sine_wave d sd sr rt delay f db = .ok s →
      s.samples.length = s.n_simulation_timesteps ∧
      s.time_resolution = 1 / (s.sampling_rate : ℚ)) := by
  refine ⟨?_, ?_, ?_⟩
  · intro ng s reps e h
    rw [create_run] at h ⊢
    cases hcr : ng.create s reps with
    | ok ng2 => rw [hcr] at h; exact absurd h (by simp)
    | error e2 => rfl
  · intro ng s reps h
    rw [create_run] at h ⊢
    cases hcr : ng.create s reps with
    | ok ng2 =>
      show ng2.output.isSome = true
      by_cases hc : (ng.bin_width / s.time_resolution).den = 1 ∧
          0 < (ng.bin_width / s.time_resolution).num ∧
          (ng.bin_width / s.time_resolution).num.toNat ∣ s.n_simulation_timesteps
      · rw [create_of_valid ng s reps hc] at hcr
        injection hcr with hcr
        subst hcr
        rfl
      · rw [create_of_invalid ng s reps hc] at hcr
        exact absurd hcr (by simp)
    | error e2 => rw [hcr] at h; exact absurd h (by simp)
  · intro d sd sr rt delay f db s h
    rw [ramped_sine_wave] at h
    by_cases h1 : d / 2 < rt
    · rw [if_pos h1] at h
      exact absurd h (by simp)
    · rw [if_neg h1] at h
      by_cases h2 : (sr : ℚ) / 2 ≤ f
      · rw [if_pos h2] at h
        exact absurd h (by simp)
      · rw [if_neg h2] at h
        injection h with hs
        subst hs
        exact ⟨by simp, rfl⟩

theorem create_failure_atomicity_witness :
    (create_run (Neurogram.init 2) stim_a 1).1 = Neurogram.init 2 ∧
    ((create_run ng_a stim_a 1).1).output.isSome = true ∧
    (stim_a.samples.length = stim_a.n_simulation_timesteps ∧
      stim_a.time_resolution = 1 / (stim_a.sampling_rate : ℚ)) :=
  ⟨create_failure_atomicity.1 (Neurogram.init 2) stim_a 1 .InvalidBinWidth
      (by rw [create_run, init_create_stim_a_err]),
   create_failure_atomicity.2.1 ng_a stim_a 1 (by rw [create_run, ng_a_create_eq]),
   create_failure_atomicity.2.2 (1/5) (3/10) 10 0 0 0 0 stim_a stim_a_eq⟩

/-- C9: every spike index produced by the spike generator for any
(channel, repetition) pair lies strictly before `n_simulation_timesteps`,
and its timestamp `i * time_resolution` lies within
`[0, stimulus_duration]`. -/
theorem spike_train_within_bounds (s : Stimulus) (c r : ℕ)
    (hlen : s.samples.length = s.n_simulation_timesteps)
    (hn : (s.n_simulation_timesteps : ℤ) =
      round (s.stimulus_duration * (s.sampling_rate : ℚ)))
    (htr : s.time_resolution = 1 / (s.sampling_rate : ℚ))
    (hsr : 0 < s.sampling_rate) :
    ∀ i ∈ spike_train s c r,
      i < s.n_simulation_timesteps ∧
      0 ≤ (i : ℚ) * s.time_resolution ∧
      (i : ℚ) * s.time_resolution ≤ s.stimulus_duration := by
  intro i hi
  have hilt : i < s.n_simulation_timesteps := hlen ▸ spike_train_mem_lt hi
  have hsrq : (0 : ℚ) < (s.sampling_rate : ℚ) := by exact_mod_cast hsr
  refine ⟨hilt, ?_, ?_⟩
  · rw [htr]
    positivity
  · rw [htr, mul_one_div, div_le_iff₀ hsrq]
    have h1 : ((s.n_simulation_timesteps : ℚ)) ≤
        s.stimulus_duration * (s.sampling_rate : ℚ) + 1/2 := by
      have hhalf := round_le_add_half (s.stimulus_duration * (s.sampling_rate : ℚ))
      rw [← hn] at hhalf
      exact_mod_cast hhalf
    have h2 : (i : ℚ) + 1 ≤ (s.n_simulation_timesteps : ℚ) := by exact_mod_cast hilt
    linarith

theorem spike_train_within_bounds_witness :
    (spike_train stim_a 0 0).all
      (fun i => decide (i < stim_a.n_simulation_timesteps)) = true := by
  have h := spike_train_within_bounds stim_a 0 0 rfl
    (by norm_num [stim_a, round_eq]) rfl (by norm_num [stim_a])
  rw [List.all_eq_true]
  intro i hi
  exact decide_eq_true (h i hi).1

theorem nat_div_eq_iff {n k b : ℕ} (h : 0 < k) :
    n / k = b ↔ k * b ≤ n ∧ n < k * (b + 1) := by
  constructor
  · rintro rfl
    exact ⟨Nat.mul_div_le n k, Nat.lt_mul_div_succ n h⟩
  · rintro ⟨h1, h2⟩
    have hb : b ≤ n / k := (Nat.le_div_iff_mul_le h).mpr (by rw [Nat.mul_comm]; exact h1)
    have hb2 : n / k < b + 1 :=
      (Nat.div_lt_iff_lt_mul h).mpr (by rw [Nat.mul_comm k] at h2; exact h2)
    omega

/-- C8: each output entry is the spike count over all repetitions falling
in the contiguous, non-overlapping bin `[k*b, k*(b+1))` of width
`bin_width` (counts summed, not averaged, across repetitions), and the
accumulation is invariant under any reordering of the per-repetition
count vectors (the fold is over an associative, commutative pointwise
sum). -/
theorem binning_sum_order_independent :
    (∀ (ng ng2 : Neurogram) (s : Stimulus) (reps k c b : ℕ),
      0 < s.time_resolution → ng.bin_width = (k : ℚ) * s.time_resolution → 0 < k →
      ng.create s reps = .ok ng2 → c < ng.channel_count →
      b < s.n_simulation_timesteps / k →
      (ng2.matrix.getD c []).getD b 0 =
        ((List.range reps).map (fun r =>
          (spike_train s c r).countP
            (fun i => decide (k * b ≤ i ∧ i < k * (b + 1))))).sum)
    ∧ (∀ (nbins : ℕ) (l1 l2 : List (List ℕ)), l1.Perm l2 →
        accumulate nbins l1 = accumulate nbins l2) := by
  constructor
  · intro ng ng2 s reps k c b htr hbw hk h hc hb
    have hr : ng.bin_width / s.time_resolution = (k : ℚ) := ratio_eq_of_multiple htr hbw
    by_cases hcond : (ng.bin_width / s.time_resolution).den = 1 ∧
        0 < (ng.bin_width / s.time_resolution).num ∧
        (ng.bin_width / s.time_resolution).num.toNat ∣ s.n_simulation_timesteps
    · rw [create_of_valid ng s reps hcond] at h
      injection h with h
      subst h
      rw [Neurogram.matrix]
      simp only [Option.getD_some]
      rw [hr, natCast_rat_num_toNat]
      rw [output_matrix_getD hc hb]
      refine congrArg List.sum (List.map_congr_left ?_)
      intro r _
      refine List.countP_congr ?_
      intro i _
      simp only [beq_iff_eq, decide_eq_true_eq]
      exact nat_div_eq_iff hk
    · rw [create_of_invalid ng s reps hcond] at h
      exact absurd h (by simp)
  · intro nbins l1 l2 hp
    exact accumulate_perm nbins hp

theorem binning_sum_order_independent_witness :
    (ng_res.matrix.getD 0 []).getD 0 0 =
      ((List.range 1).map (fun r =>
        (spike_train stim_a 0 r).countP
          (fun i => decide (1 * 0 ≤ i ∧ i < 1 * (0 + 1))))).sum ∧
    accumulate 1 [[1], [2]] = accumulate 1 [[2], [1]] :=
  ⟨binning_sum_order_independent.1 ng_a ng_res stim_a 1 1 0 0 (by norm_num [stim_a])
      (by norm_num [ng_a, Neurogram.set_bin_width, Neurogram.init, stim_a]) one_pos
      ng_a_create_eq (by norm_num [ng_a, Neurogram.set_bin_width, Neurogram.init])
      (by norm_num [stim_a]),
   binning_sum_order_independent.2 1 [[1], [2]] [[2], [1]]
      (List.Perm.swap ([2] : List ℕ) ([1] : List ℕ) [])⟩
